import Mathlib

/-!
CompositeYView: axis reconciliation, zoom and crosshair throttling.

A shallow embedding of `src/src/composites/y/CompositeYView.js`.

* JavaScript values that can occur as domain bounds are `Val`
  (a number, `undefined`, `null` or `NaN`); pixel coordinates are `Int`.
* The configuration paths `axes.<name>.domain`, `axes.<name>.calculatedDomain`
  and `axes.<name>.range` are the three fields of `AxisSpec`, and the `axes`
  attribute is a function from axis names to `AxisSpec`.
* A child component is represented by what `_updateComponent` reads from it
  after `component.calculateScales()`: its y-scale domain and its x/y ranges.
-/

namespace CompositeYView

/-! ## JavaScript values and comparisons -/

/-- A JavaScript value that can occur as a bound of a domain. -/
inductive Val where
  | num (n : Int)
  | undef
  | null
  | nan
  deriving DecidableEq, Repr

namespace Val

/-- JavaScript `ToNumber`; `none` stands for `NaN`. -/
def toNumber : Val → Option Int
  | num n => some n
  | undef => none
  | null => some 0
  | nan => none

/-- The relational operator `a > b`. -/
def gt (a b : Val) : Bool :=
  match a.toNumber, b.toNumber with
  | some x, some y => decide (y < x)
  | _, _ => false

/-- The relational operator `a < b`. -/
def lt (a b : Val) : Bool :=
  match a.toNumber, b.toNumber with
  | some x, some y => decide (x < y)
  | _, _ => false

/-- The relational operator `a >= b`. -/
def ge (a b : Val) : Bool :=
  match a.toNumber, b.toNumber with
  | some x, some y => decide (y ≤ x)
  | _, _ => false

/-- The test `v == null`, which is also lodash `_.isNil(v)`. -/
def isNil : Val → Bool
  | undef => true
  | null => true
  | _ => false

/-- Strict inequality `a !== b`; `NaN` differs from itself. -/
def strictNe : Val → Val → Bool
  | num a, num b => decide (a ≠ b)
  | undef, undef => false
  | null, null => false
  | _, _ => true

end Val

/-! ## `d3Array.extent` -/

/-- Modelled from the spec: `d3Array.extent` is an imported library function
whose body is not under `src/`; the spec calls it the numeric extent. This is
the second loop of the library routine: once a first comparable value has been
found, every later value that is not `null`/`undefined` is compared against
the running minimum and maximum. -/
def extentRest (min max : Val) : List Val → Val × Val
  | [] => (min, max)
  | v :: vs =>
    if v.isNil then extentRest min max vs
    else
      extentRest (if min.gt v then v else min) (if max.lt v then v else max) vs

/-- Modelled from the spec: `d3Array.extent(values)`, an imported library
function whose body is not under `src/`. The first loop skips values that are
`null`, `undefined` or not comparable with themselves (`NaN`); the result of
an array without comparable values is `[undefined, undefined]`. -/
def extent : List Val → Val × Val
  | [] => (Val.undef, Val.undef)
  | v :: vs =>
    if !v.isNil && v.ge v then extentRest v v vs else extent vs

/-- The numbers among a list of bounds. -/
def numbers : List Val → List Int
  | [] => []
  | Val.num n :: vs => n :: numbers vs
  | _ :: vs => numbers vs

/-- The pair `[minimum, maximum]` of the numbers among `vs`, following the
spec's words "numeric extent"; `[undefined, undefined]` when there is none. -/
def numericExtent (vs : List Val) : Val × Val :=
  match numbers vs with
  | [] => (Val.undef, Val.undef)
  | n :: ns => (Val.num (ns.foldl min n), Val.num (ns.foldl max n))

/-! ## Axis model and the scale coordinator -/

/-- The per-axis entries of the configuration that the view reads and writes. -/
structure AxisSpec where
  domain : Option (Val × Val) := none
  calculatedDomain : Option (Val × Val) := none
  range : Option (Int × Int) := none
  deriving DecidableEq, Repr

/-- The `axes` attribute of the configuration, by axis name. -/
abbrev Axes := String → AxisSpec

/-- The write `config.set('axes.<name>.domain', v, {silent: true})`. -/
def setDomain (axes : Axes) (name : String) (v : Option (Val × Val)) : Axes :=
  fun n => if n = name then { axes n with domain := v } else axes n

/-- The write `config.set('axes.<name>.calculatedDomain', v, {silent: true})`. -/
def setCalculatedDomain (axes : Axes) (name : String) (v : Option (Val × Val)) : Axes :=
  fun n => if n = name then { axes n with calculatedDomain := v } else axes n

/-- The write `config.set('axes.<name>.range', v, {silent: true})`. -/
def setRange (axes : Axes) (name : String) (v : Option (Int × Int)) : Axes :=
  fun n => if n = name then { axes n with range := v } else axes n

/-- A child component as `_updateComponent` sees it after
`component.calculateScales()`: `axis` is `config.getAxisName(child.accessors)`,
`yDomain` is `component.config.yScale.domain()`, `xRange` and `yRange` are
`component.config.xScale.range()` and `component.config.yScale.range()`. -/
structure Component where
  key : String
  axis : String
  yDomain : List Val
  xRange : Int × Int
  yRange : Int × Int
  deriving DecidableEq, Repr

/-- The array `calculatedDomain || []`. -/
def domainArray : Option (Val × Val) → List Val
  | some (a, b) => [a, b]
  | none => []

/-- The fold step of `_updateComponent` (lines 203-215). -/
def _updateComponent (innerWidth innerHeight : Int) (axes : Axes) (c : Component) : Axes :=
  let axisName := c.axis
  let yDomain := domainArray (axes axisName).calculatedDomain
  let xRange := ((axes "x").range).getD (0, innerWidth)
  let yRange := ((axes axisName).range).getD (innerHeight, 0)
  let yDomain := extent (yDomain ++ c.yDomain)
  let componentXRange := c.xRange
  let componentYRange := c.yRange
  let xRange := (max xRange.1 componentXRange.1, min xRange.2 componentXRange.2)
  let yRange := (min yRange.1 componentYRange.1, max yRange.2 componentYRange.2)
  setRange (setRange (setCalculatedDomain axes axisName (some yDomain)) "x" (some xRange))
    axisName (some yRange)

/-- The reset loop of `_updateComponents` (lines 166-169). -/
def resetAxes (activeAxes : List String) (axes : Axes) : Axes :=
  activeAxes.foldl (fun ax name => setRange (setCalculatedDomain ax name none) name none) axes

/-- The axis bookkeeping of `_updateComponents`: reset every active axis,
then run `_updateComponent` on each child. -/
def _updateComponents (innerWidth innerHeight : Int) (activeAxes : List String)
    (children : List Component) (axes : Axes) : Axes :=
  children.foldl (_updateComponent innerWidth innerHeight) (resetAxes activeAxes axes)

/-- What one child does to the `calculatedDomain` it is folded into. -/
def foldDomain (d : Option (Val × Val)) (c : Component) : Option (Val × Val) :=
  some (extent (domainArray d ++ c.yDomain))

/-- What one child does to the shared x-range (line 210). -/
def foldXRange (iw : Int) (r : Option (Int × Int)) (c : Component) : Option (Int × Int) :=
  some (max (r.getD (0, iw)).1 c.xRange.1, min (r.getD (0, iw)).2 c.xRange.2)

/-- What one child does to the range of its y axis (line 211). -/
def foldYRange (ih : Int) (r : Option (Int × Int)) (c : Component) : Option (Int × Int) :=
  some (min (r.getD (ih, 0)).1 c.yRange.1, max (r.getD (ih, 0)).2 c.yRange.2)

/-! ## Zoom controller -/

/-- An entry of `config.yAccessors`, as far as `zoom` reads it. -/
structure AccessorSpec where
  accessor : String
  axis : String
  deriving DecidableEq, Repr

/-- A zoom request: `undefined`, or an object from accessor names to arrays of
bounds. -/
abbrev ZoomRequest := Option (List (String × List Val))

/-- One step of lodash `_.groupBy`: append the accessor to the group of its
axis, creating the group at the end when the key is new. Groups keep the
accessor names only, the one property `zoom` reads from their members. -/
def insertGroup : List (String × List String) → String → String → List (String × List String)
  | [], axis, accessor => [(axis, [accessor])]
  | (k, members) :: gs, axis, accessor =>
    if k = axis then (k, members ++ [accessor]) :: gs
    else (k, members) :: insertGroup gs axis accessor

/-- The grouping `_.groupBy(this.config.yAccessors, 'axis')`. -/
def groupBy (yAccessors : List AccessorSpec) : List (String × List String) :=
  yAccessors.foldl (fun gs a => insertGroup gs a.axis a.accessor) []

/-- The property assignment `groups[axis] = members`. -/
def setGroup : List (String × List String) → String → List String → List (String × List String)
  | [], axis, members => [(axis, members)]
  | (k, old) :: gs, axis, members =>
    if k = axis then (k, members) :: gs else (k, old) :: setGroup gs axis members

/-- The object `accessorsByAxis` of `zoom` (lines 77-78). -/
def accessorsByAxis (yAccessors : List AccessorSpec) (xAccessor : String) :
    List (String × List String) :=
  setGroup (groupBy yAccessors) "x" [xAccessor]

/-- The filter predicate `!ranges || ranges[a.accessor]` (line 83); an array
is truthy, a missing key is `undefined`. -/
def requested (ranges : ZoomRequest) (accessor : String) : Bool :=
  match ranges with
  | none => true
  | some r => (r.lookup accessor).isSome

/-- What one accessor contributes to the flattened array of line 86-88:
`ranges[accessor]` spliced in by `flatten`, a lone `undefined` when the key is
missing, nothing when `ranges` is `undefined`. -/
def requestedBounds (ranges : ZoomRequest) (accessor : String) : List Val :=
  match ranges with
  | none => []
  | some r =>
    match r.lookup accessor with
    | some bounds => bounds
    | none => [Val.undef]

/-- The combined extent of one axis group (lines 86-88). -/
def combinedRange (ranges : ZoomRequest) (members : List String) : Val × Val :=
  extent (members.map (requestedBounds ranges)).flatten

/-- The body of the loop over `accessorsByAxis` in `zoom` (lines 80-94). -/
def zoomAxis (ranges : ZoomRequest) (axes : Axes) (g : String × List String) : Axes :=
  if (g.2.filter (requested ranges)).isEmpty then axes
  else
    let range := combinedRange ranges g.2
    if range.1.strictNe range.2 || range.1.isNil then setDomain axes g.1 (some range)
    else axes

/-- The method `zoom(ranges)`. The final `this.render()` is the parameter
`render`: most of it runs code that is not under `src/`. -/
def zoom (render : Axes → Axes) (yAccessors : List AccessorSpec) (xAccessor : String)
    (ranges : ZoomRequest) (axes : Axes) : Axes :=
  render ((accessorsByAxis yAccessors xAccessor).foldl (zoomAxis ranges) axes)

/-- A sequence of `zoom` calls with defined ranges, oldest first. -/
def zoomAll (render : Axes → Axes) (yAccessors : List AccessorSpec) (xAccessor : String)
    (requests : List (List (String × List Val))) (axes : Axes) : Axes :=
  requests.foldl (fun ax r => zoom render yAccessors xAccessor (some r) ax) axes

/-! ## Crosshair synchronizer -/

/-- A pointer position in local plot coordinates. -/
abbrev Point := Int × Int

/-- A call `actionman.fire('ToggleVisibility', target, visible, data, config)`.
Of the payload only `data.hoverPoint` is kept; the rest of it is computed by
collaborators that are not under `src/`. -/
structure Event where
  target : Option String
  visible : Bool
  hoverPoint : Option Point
  deriving DecidableEq, Repr

/-- The part of the view's state that the crosshair code touches: the flag
`_ticking`, the dispatched events (oldest first) and the callbacks queued with
`window.requestAnimationFrame`, each being `_toggleCrosshair` bound to a
point. -/
structure Crosshair where
  ticking : Bool
  fired : List Event
  frame : List Point
  deriving DecidableEq, Repr

/-- The method `_toggleCrosshair(point)` (lines 224-286). -/
def _toggleCrosshair (crosshairId : Option String) (innerWidth innerHeight : Int)
    (point : Option Point) (s : Crosshair) : Crosshair :=
  match point with
  | none => { s with fired := s.fired ++ [⟨crosshairId, false, none⟩], ticking := false }
  | some p =>
    if p.1 < 0 || p.1 > innerWidth || p.2 < 0 || p.2 > innerHeight then
      { s with fired := s.fired ++ [⟨crosshairId, false, none⟩], ticking := false }
    else
      { s with fired := s.fired ++ [⟨crosshairId, true, some p⟩], ticking := false }

/-- The handler `_onMousemove`; `point` is `d3Selection.mouse(this.el)`. -/
def _onMousemove (point : Point) (s : Crosshair) : Crosshair :=
  if !s.ticking then { s with frame := s.frame ++ [point], ticking := true } else s

/-- A run of pointer-move events, oldest first. -/
def mousemoves (points : List Point) (s : Crosshair) : Crosshair :=
  points.foldl (fun st p => _onMousemove p st) s

/-- An animation frame: the queued callbacks run in the order they were
queued. -/
def animationFrame (crosshairId : Option String) (innerWidth innerHeight : Int)
    (s : Crosshair) : Crosshair :=
  s.frame.foldl (fun st p => _toggleCrosshair crosshairId innerWidth innerHeight (some p) st)
    { s with frame := [] }

/-- The end of `render` (lines 63-65): `this._toggleCrosshair()` without a
point, then `this._ticking = false`. -/
def renderCrosshair (crosshairId : Option String) (innerWidth innerHeight : Int)
    (s : Crosshair) : Crosshair :=
  { _toggleCrosshair crosshairId innerWidth innerHeight none s with ticking := false }

/-! ## A sample chart -/

/-- A chart with the x accessor `t`, accessor `a` on `y1` and accessor `b` on
`y2`. -/
def sceneAccessors : List AccessorSpec := [⟨"a", "y1"⟩, ⟨"b", "y2"⟩]

/-- The render pass of the chart `sceneAccessors` on a plot of 200 by 100. -/
def sceneRender : Axes → Axes :=
  _updateComponents 200 100 ["x", "y1", "y2"]
    [⟨"a", "y1", [Val.num 3, Val.num 57], (0, 200), (100, 0)⟩,
     ⟨"b", "y2", [Val.num (-100), Val.num 0], (0, 200), (100, 0)⟩]

/-- Axes of the chart `sceneAccessors`: `y1` is configured with the domain
`[0, 100]`, the other axes have no configured domain. -/
def sceneAxes : Axes :=
  fun n => if n = "y1" then { domain := some (Val.num 0, Val.num 100) } else {}

/-! ## Vocabulary of the properties -/

/-- The pixel value `v` lies between the two ends of the range `r`, whatever
their order. -/
def liesBetween (r : Int × Int) (v : Int) : Prop :=
  (r.1 ≤ v ∧ v ≤ r.2) ∨ (r.2 ≤ v ∧ v ≤ r.1)

instance (r : Int × Int) (v : Int) : Decidable (liesBetween r v) := by
  unfold liesBetween; infer_instance

/-- The bound `new` is not above the bound `old`: when `old` is a number, so
is `new`, and it is at most `old`. -/
def notRaised (old new : Val) : Prop :=
  ∀ m, old = Val.num m → ∃ k, new = Val.num k ∧ k ≤ m

/-- The bound `new` is not below the bound `old`: when `old` is a number, so
is `new`, and it is at least `old`. -/
def notLowered (old new : Val) : Prop :=
  ∀ m, old = Val.num m → ∃ k, new = Val.num k ∧ m ≤ k

/-- The children of a pass that are mapped to the axis `name`. -/
def childrenOf (name : String) (children : List Component) : List Component :=
  children.filter (fun c => c.axis = name)

/-- All bounds of the y-scale domains of a list of children. -/
def allBounds (children : List Component) : List Val :=
  (children.map (fun c => c.yDomain)).flatten

/-! ## The extent routine computes the numeric extent -/

theorem numbers_append (xs ys : List Val) : numbers (xs ++ ys) = numbers xs ++ numbers ys := by
  induction xs with
  | nil => rfl
  | cons v vs ih => cases v <;> simp [numbers, ih]

theorem foldl_min_le_init (l : List Int) (a : Int) : l.foldl min a ≤ a := by
  induction l generalizing a with
  | nil => exact le_refl a
  | cons x xs ih => exact le_trans (ih (min a x)) (min_le_left a x)

theorem foldl_min_le_mem (l : List Int) (a x : Int) (hx : x ∈ l) : l.foldl min a ≤ x := by
  induction l generalizing a with
  | nil => cases hx
  | cons y ys ih =>
    rcases List.mem_cons.mp hx with h | h
    · subst h
      exact le_trans (foldl_min_le_init ys (min a x)) (min_le_right a x)
    · exact ih (min a y) h

theorem foldl_min_mem (l : List Int) (a : Int) : l.foldl min a ∈ a :: l := by
  induction l generalizing a with
  | nil => simp
  | cons y ys ih =>
    have h := ih (min a y)
    rcases List.mem_cons.mp h with h | h
    · rw [List.foldl_cons, h]
      rcases min_choice a y with hc | hc <;> rw [hc] <;> simp
    · exact List.mem_cons_of_mem _ (List.mem_cons_of_mem _ h)

theorem init_le_foldl_max (l : List Int) (a : Int) : a ≤ l.foldl max a := by
  induction l generalizing a with
  | nil => exact le_refl a
  | cons x xs ih => exact le_trans (le_max_left a x) (ih (max a x))

theorem mem_le_foldl_max (l : List Int) (a x : Int) (hx : x ∈ l) : x ≤ l.foldl max a := by
  induction l generalizing a with
  | nil => cases hx
  | cons y ys ih =>
    rcases List.mem_cons.mp hx with h | h
    · subst h
      exact le_trans (le_max_right a x) (init_le_foldl_max ys (max a x))
    · exact ih (max a y) h

theorem foldl_max_mem (l : List Int) (a : Int) : l.foldl max a ∈ a :: l := by
  induction l generalizing a with
  | nil => simp
  | cons y ys ih =>
    have h := ih (max a y)
    rcases List.mem_cons.mp h with h | h
    · rw [List.foldl_cons, h]
      rcases max_choice a y with hc | hc <;> rw [hc] <;> simp
    · exact List.mem_cons_of_mem _ (List.mem_cons_of_mem _ h)

theorem extentRest_num (a b : Int) (vs : List Val) :
    extentRest (Val.num a) (Val.num b) vs
      = (Val.num ((numbers vs).foldl min a), Val.num ((numbers vs).foldl max b)) := by
  induction vs generalizing a b with
  | nil => rfl
  | cons v vs ih =>
    cases v with
    | num n =>
      have h1 : (if (Val.num a).gt (Val.num n) then Val.num n else Val.num a)
          = Val.num (min a n) := by
        by_cases h : n < a
        · simp [Val.gt, Val.toNumber, h, min_eq_right (le_of_lt h)]
        · simp [Val.gt, Val.toNumber, h, min_eq_left (not_lt.mp h)]
      have h2 : (if (Val.num b).lt (Val.num n) then Val.num n else Val.num b)
          = Val.num (max b n) := by
        by_cases h : b < n
        · simp [Val.lt, Val.toNumber, h, max_eq_right (le_of_lt h)]
        · simp [Val.lt, Val.toNumber, h, max_eq_left (not_lt.mp h)]
      simp only [extentRest, Val.isNil, numbers, List.foldl_cons, h1, h2]
      simpa using ih (min a n) (max b n)
    | undef => simpa [extentRest, Val.isNil, numbers] using ih a b
    | null => simpa [extentRest, Val.isNil, numbers] using ih a b
    | nan => simpa [extentRest, Val.isNil, numbers, Val.gt, Val.lt, Val.toNumber] using ih a b

/-- The library routine `extent` returns the numeric extent of the spec. -/
theorem extent_eq_numericExtent (vs : List Val) : extent vs = numericExtent vs := by
  induction vs with
  | nil => rfl
  | cons v vs ih =>
    cases v with
    | num n => simp [extent, Val.isNil, Val.ge, Val.toNumber, extentRest_num, numericExtent, numbers]
    | undef => simpa [extent, Val.isNil, numericExtent, numbers] using ih
    | null => simpa [extent, Val.isNil, numericExtent, numbers] using ih
    | nan => simpa [extent, Val.isNil, Val.ge, Val.toNumber, numericExtent, numbers] using ih

theorem foldl_min_le_of_mem_cons (l : List Int) (a x : Int) (hx : x ∈ a :: l) :
    l.foldl min a ≤ x := by
  rcases List.mem_cons.mp hx with h | h
  · subst h
    exact foldl_min_le_init l x
  · exact foldl_min_le_mem l a x h

theorem le_foldl_max_of_mem_cons (l : List Int) (a x : Int) (hx : x ∈ a :: l) :
    x ≤ l.foldl max a := by
  rcases List.mem_cons.mp hx with h | h
  · subst h
    exact init_le_foldl_max l x
  · exact mem_le_foldl_max l a x h

theorem numericExtent_nil {vs : List Val} (h : numbers vs = []) :
    numericExtent vs = (Val.undef, Val.undef) := by
  simp [numericExtent, h]

theorem numericExtent_cons {vs : List Val} {n : Int} {ns : List Int} (h : numbers vs = n :: ns) :
    numericExtent vs = (Val.num (ns.foldl min n), Val.num (ns.foldl max n)) := by
  simp [numericExtent, h]

/-- Feeding the extent of `xs` back in as two bounds is the same as keeping
`xs` itself: the step `extent(yDomain.concat(...))` accumulates. -/
theorem numericExtent_domainArray_append (xs ys : List Val) :
    numericExtent (domainArray (some (numericExtent xs)) ++ ys) = numericExtent (xs ++ ys) := by
  cases h : numbers xs with
  | nil =>
    rw [numericExtent_nil h]
    simp [numericExtent, numbers_append, h, domainArray, numbers]
  | cons n ns =>
    rw [numericExtent_cons h]
    have hle : ns.foldl min n ≤ ns.foldl max n :=
      le_trans (foldl_min_le_init ns n) (init_le_foldl_max ns n)
    simp [numericExtent, numbers_append, h, domainArray, numbers, List.foldl_append,
      min_eq_left hle, max_eq_right hle]

theorem numbers_perm {xs ys : List Val} (h : xs.Perm ys) : (numbers xs).Perm (numbers ys) := by
  induction h with
  | nil => exact List.Perm.refl _
  | cons v _ ih => cases v <;> simp [numbers, ih]
  | swap v w l =>
    cases v <;> cases w <;> simp [numbers, List.Perm.swap]
  | trans _ _ ih1 ih2 => exact ih1.trans ih2

/-- The numeric extent does not depend on the order of the bounds. -/
theorem numericExtent_perm {xs ys : List Val} (h : (numbers xs).Perm (numbers ys)) :
    numericExtent xs = numericExtent ys := by
  cases hx : numbers xs with
  | nil =>
    rw [hx] at h
    rw [numericExtent_nil hx, numericExtent_nil h.nil_eq.symm]
  | cons n ns =>
    cases hy : numbers ys with
    | nil =>
      rw [hy] at h
      rw [h.eq_nil] at hx
      cases hx
    | cons m ms =>
      rw [hx, hy] at h
      rw [numericExtent_cons hx, numericExtent_cons hy]
      have h1 : ns.foldl min n = ms.foldl min m :=
        le_antisymm
          (foldl_min_le_of_mem_cons ns n _ (h.symm.subset (foldl_min_mem ms m)))
          (foldl_min_le_of_mem_cons ms m _ (h.subset (foldl_min_mem ns n)))
      have h2 : ns.foldl max n = ms.foldl max m :=
        le_antisymm
          (le_foldl_max_of_mem_cons ms m _ (h.subset (foldl_max_mem ns n)))
          (le_foldl_max_of_mem_cons ns n _ (h.symm.subset (foldl_max_mem ms m)))
      rw [h1, h2]

/-- More bounds never raise the minimum nor lower the maximum. -/
theorem numericExtent_append_widens (xs ys : List Val) :
    notRaised (numericExtent xs).1 (numericExtent (xs ++ ys)).1
      ∧ notLowered (numericExtent xs).2 (numericExtent (xs ++ ys)).2 := by
  cases h : numbers xs with
  | nil =>
    rw [numericExtent_nil h]
    constructor
    · intro m hm
      cases hm
    · intro m hm
      cases hm
  | cons n ns =>
    have h2 : numbers (xs ++ ys) = n :: (ns ++ numbers ys) := by
      rw [numbers_append, h]; rfl
    rw [numericExtent_cons h, numericExtent_cons h2]
    constructor
    · intro m hm
      cases hm
      exact ⟨_, rfl, by rw [List.foldl_append]; exact foldl_min_le_init _ _⟩
    · intro m hm
      cases hm
      exact ⟨_, rfl, by rw [List.foldl_append]; exact init_le_foldl_max _ _⟩

/-! ## The render pass, axis by axis -/

theorem _updateComponent_calculatedDomain (iw ih : Int) (axes : Axes) (c : Component)
    (name : String) :
    (_updateComponent iw ih axes c name).calculatedDomain
      = if c.axis = name then foldDomain (axes name).calculatedDomain c
        else (axes name).calculatedDomain := by
  unfold _updateComponent setRange setCalculatedDomain foldDomain
  by_cases h : c.axis = name
  · subst h
    by_cases hx : c.axis = "x" <;> simp [hx]
  · have h2 : ¬ name = c.axis := fun e => h e.symm
    by_cases hx : name = "x"
    · subst hx
      simp [h, h2]
    · simp [h, h2, hx]

theorem foldl_updateComponent_calculatedDomain (iw ih : Int) (cs : List Component) (axes : Axes)
    (name : String) :
    (cs.foldl (_updateComponent iw ih) axes name).calculatedDomain
      = (childrenOf name cs).foldl foldDomain (axes name).calculatedDomain := by
  induction cs generalizing axes with
  | nil => rfl
  | cons c cs ih2 =>
    rw [List.foldl_cons, ih2, _updateComponent_calculatedDomain]
    by_cases h : c.axis = name
    · simp [childrenOf, List.filter_cons, h]
    · simp [childrenOf, List.filter_cons, h]

theorem allBounds_cons (c : Component) (cs : List Component) :
    allBounds (c :: cs) = c.yDomain ++ allBounds cs := by
  simp [allBounds]

theorem foldl_foldDomain_some (cs : List Component) (xs : List Val) :
    cs.foldl foldDomain (some (numericExtent xs)) = some (numericExtent (xs ++ allBounds cs)) := by
  induction cs generalizing xs with
  | nil => simp [allBounds]
  | cons c cs ih =>
    rw [List.foldl_cons]
    have h : foldDomain (some (numericExtent xs)) c = some (numericExtent (xs ++ c.yDomain)) := by
      unfold foldDomain
      rw [extent_eq_numericExtent, numericExtent_domainArray_append]
    rw [h, ih, allBounds_cons, List.append_assoc]

theorem foldl_foldDomain_none (c : Component) (cs : List Component) :
    (c :: cs).foldl foldDomain none = some (numericExtent (allBounds (c :: cs))) := by
  rw [List.foldl_cons]
  have h : foldDomain none c = some (numericExtent c.yDomain) := by
    unfold foldDomain
    rw [extent_eq_numericExtent]
    rfl
  rw [h, foldl_foldDomain_some, allBounds_cons]

theorem resetAxes_apply (active : List String) (axes : Axes) (name : String) :
    resetAxes active axes name
      = if name ∈ active then { axes name with calculatedDomain := none, range := none }
        else axes name := by
  unfold resetAxes
  induction active generalizing axes with
  | nil => simp
  | cons a as ih =>
    rw [List.foldl_cons, ih]
    by_cases h1 : name ∈ as
    · by_cases h2 : name = a <;> simp [h1, h2, setRange, setCalculatedDomain]
    · by_cases h2 : name = a <;> simp [h1, h2, setRange, setCalculatedDomain]

/-- After a pass, the `calculatedDomain` of an active axis is determined by
the children mapped to it alone. -/
theorem _updateComponents_calculatedDomain (iw ih : Int) (active : List String)
    (children : List Component) (axes : Axes) (name : String) (hA : name ∈ active) :
    (_updateComponents iw ih active children axes name).calculatedDomain
      = (childrenOf name children).foldl foldDomain none := by
  unfold _updateComponents
  rw [foldl_updateComponent_calculatedDomain, resetAxes_apply]
  simp [hA]

theorem allBounds_childrenOf_perm (name : String) {cs ds : List Component} (h : cs.Perm ds) :
    (numbers (allBounds (childrenOf name cs))).Perm (numbers (allBounds (childrenOf name ds))) := by
  apply numbers_perm
  unfold allBounds childrenOf
  exact ((h.filter _).map _).flatten

theorem foldl_foldDomain_none_perm {cs ds : List Component}
    (h : (numbers (allBounds cs)).Perm (numbers (allBounds ds))) (hl : cs.length = ds.length) :
    cs.foldl foldDomain none = ds.foldl foldDomain none := by
  cases cs with
  | nil =>
    cases ds with
    | nil => rfl
    | cons d ds => simp at hl
  | cons c cs =>
    cases ds with
    | nil => simp at hl
    | cons d ds =>
      rw [foldl_foldDomain_none, foldl_foldDomain_none, numericExtent_perm h]

theorem notRaised_refl (v : Val) : notRaised v v := fun m h => ⟨m, h, le_refl m⟩

theorem notLowered_refl (v : Val) : notLowered v v := fun m h => ⟨m, h, le_refl m⟩

theorem _updateComponents_perm (iw ih : Int) (active : List String)
    {reordered children : List Component} (hp : reordered.Perm children) (axes axes' : Axes)
    (name : String) (hA : name ∈ active) :
    (_updateComponents iw ih active reordered axes' name).calculatedDomain
      = (_updateComponents iw ih active children axes name).calculatedDomain := by
  rw [_updateComponents_calculatedDomain iw ih active reordered axes' name hA,
    _updateComponents_calculatedDomain iw ih active children axes name hA]
  exact foldl_foldDomain_none_perm (allBounds_childrenOf_perm name hp)
    ((hp.filter _).length_eq)

theorem foldl_foldDomain_widens (c : Component) (cs : List Component) (lo hi : Val)
    (h : cs.foldl foldDomain none = some (lo, hi)) :
    ∃ lo' hi', (c :: cs).foldl foldDomain none = some (lo', hi')
      ∧ notRaised lo lo' ∧ notLowered hi hi' := by
  cases cs with
  | nil => cases h
  | cons d ds =>
    rw [foldl_foldDomain_none] at h
    rw [foldl_foldDomain_none, allBounds_cons c (d :: ds)]
    have hp : (numbers (c.yDomain ++ allBounds (d :: ds))).Perm
        (numbers (allBounds (d :: ds) ++ c.yDomain)) :=
      numbers_perm List.perm_append_comm
    rw [numericExtent_perm hp]
    have hw := numericExtent_append_widens (allBounds (d :: ds)) c.yDomain
    have h1 : (numericExtent (allBounds (d :: ds))).1 = lo := by
      have := Option.some.inj h
      rw [this]
    have h2 : (numericExtent (allBounds (d :: ds))).2 = hi := by
      have := Option.some.inj h
      rw [this]
    rw [h1, h2] at hw
    exact ⟨_, _, rfl, hw.1, hw.2⟩

/-! ## Domain union (C1, C2) -/

/-- C1: for an active axis, after one render pass (`_updateComponents`: reset,
then `_updateComponent` on each child) the axis's `calculatedDomain` is
`[minimum, maximum]` over all bounds of the y-scale domains of the children
mapped to that axis; the result is the same for every order of the children
and every configuration held before the pass; and a pass with one more child
never has a higher minimum nor a lower maximum. -/
theorem calculatedDomain_is_numeric_extent (iw ih : Int) (active : List String)
    (children : List Component) (axes : Axes) (name : String) (hA : name ∈ active) :
    (childrenOf name children ≠ [] →
      (_updateComponents iw ih active children axes name).calculatedDomain
        = some (numericExtent (allBounds (childrenOf name children))))
    ∧ (∀ reordered : List Component, reordered.Perm children → ∀ axes' : Axes,
        (_updateComponents iw ih active reordered axes' name).calculatedDomain
          = (_updateComponents iw ih active children axes name).calculatedDomain)
    ∧ (∀ (c : Component) (extended : List Component), extended.Perm (c :: children) →
        ∀ lo hi : Val,
        (_updateComponents iw ih active children axes name).calculatedDomain = some (lo, hi) →
        ∃ lo' hi' : Val,
          (_updateComponents iw ih active extended axes name).calculatedDomain = some (lo', hi')
            ∧ notRaised lo lo' ∧ notLowered hi hi') := by
  refine ⟨?_, ?_, ?_⟩
  · intro hne
    rw [_updateComponents_calculatedDomain iw ih active children axes name hA]
    cases hc : childrenOf name children with
    | nil => exact absurd hc hne
    | cons c cs => exact foldl_foldDomain_none c cs
  · intro reordered hp axes'
    exact _updateComponents_perm iw ih active hp axes axes' name hA
  · intro c extended hp lo hi hd
    rw [_updateComponents_perm iw ih active hp axes axes name hA,
      _updateComponents_calculatedDomain iw ih active (c :: children) axes name hA]
    rw [_updateComponents_calculatedDomain iw ih active children axes name hA] at hd
    by_cases hc : c.axis = name
    · have hf : childrenOf name (c :: children) = c :: childrenOf name children := by
        simp [childrenOf, List.filter_cons, hc]
      rw [hf]
      exact foldl_foldDomain_widens c _ lo hi hd
    · have hf : childrenOf name (c :: children) = childrenOf name children := by
        simp [childrenOf, List.filter_cons, hc]
      rw [hf]
      exact ⟨lo, hi, hd, notRaised_refl lo, notLowered_refl hi⟩

/-- Witness of C1: a child with domain `[3, 57]` on `y1` and one with
`[-100, 0]` on `y2`; the pass starts from a stale `calculatedDomain`. -/
theorem calculatedDomain_is_numeric_extent_witness :
    "y1" ∈ ["x", "y1", "y2"]
      ∧ (_updateComponents 200 100 ["x", "y1", "y2"]
          [⟨"a", "y1", [Val.num 3, Val.num 57], (0, 200), (100, 0)⟩,
           ⟨"b", "y2", [Val.num (-100), Val.num 0], (0, 200), (100, 0)⟩]
          (fun _ => { calculatedDomain := some (Val.num (-500), Val.num 500) })
          "y1").calculatedDomain
        = some (numericExtent (allBounds (childrenOf "y1"
          [⟨"a", "y1", [Val.num 3, Val.num 57], (0, 200), (100, 0)⟩,
           ⟨"b", "y2", [Val.num (-100), Val.num 0], (0, 200), (100, 0)⟩]))) :=
  ⟨by decide,
    (calculatedDomain_is_numeric_extent 200 100 ["x", "y1", "y2"]
      [⟨"a", "y1", [Val.num 3, Val.num 57], (0, 200), (100, 0)⟩,
       ⟨"b", "y2", [Val.num (-100), Val.num 0], (0, 200), (100, 0)⟩]
      (fun _ => { calculatedDomain := some (Val.num (-500), Val.num 500) })
      "y1" (by decide)).1 (by decide)⟩

/-- C2: in a render pass, folding a child whose y-scale domain has no numeric
bound (empty, `[undefined, undefined]`, `[NaN, NaN]`) into its active axis
leaves a `calculatedDomain` accumulated so far exactly as it was, and turns a
still unset one into `[undefined, undefined]`. -/
theorem empty_child_is_identity (iw ih : Int) (active : List String)
    (children : List Component) (axes : Axes) (e : Component)
    (hA : e.axis ∈ active) (he : numbers e.yDomain = []) :
    (∀ lo hi : Val,
      (_updateComponents iw ih active children axes e.axis).calculatedDomain = some (lo, hi) →
      (_updateComponent iw ih (_updateComponents iw ih active children axes) e
        e.axis).calculatedDomain = some (lo, hi))
    ∧ ((_updateComponents iw ih active children axes e.axis).calculatedDomain = none →
      (_updateComponent iw ih (_updateComponents iw ih active children axes) e
        e.axis).calculatedDomain = some (Val.undef, Val.undef)) := by
  have hstep : ∀ ax : Axes, (_updateComponent iw ih ax e e.axis).calculatedDomain
      = foldDomain (ax e.axis).calculatedDomain e := by
    intro ax
    rw [_updateComponent_calculatedDomain]
    simp
  rw [hstep, _updateComponents_calculatedDomain iw ih active children axes e.axis hA]
  constructor
  · intro lo hi hd
    cases hc : childrenOf e.axis children with
    | nil => rw [hc] at hd; cases hd
    | cons c cs =>
      rw [hc, foldl_foldDomain_none] at hd
      rw [foldl_foldDomain_none]
      unfold foldDomain
      rw [extent_eq_numericExtent, numericExtent_domainArray_append, ← hd]
      congr 1
      apply numericExtent_perm
      rw [numbers_append, he, List.append_nil]
  · intro hd
    rw [hd]
    unfold foldDomain
    rw [extent_eq_numericExtent]
    exact congrArg some (numericExtent_nil (by simpa [domainArray] using he))

/-- Witness of C2: a child with domain `[NaN, NaN]` folded after a child with
domain `[3, 57]` on the same axis. -/
theorem empty_child_is_identity_witness :
    ("y1" ∈ ["x", "y1"] ∧ numbers [Val.nan, Val.nan] = [])
      ∧ (_updateComponent 200 100
          (_updateComponents 200 100 ["x", "y1"]
            [⟨"a", "y1", [Val.num 3, Val.num 57], (0, 200), (100, 0)⟩] (fun _ => {}))
          ⟨"e", "y1", [Val.nan, Val.nan], (0, 200), (100, 0)⟩ "y1").calculatedDomain
        = some (Val.num 3, Val.num 57) :=
  ⟨⟨by decide, by decide⟩,
    (empty_child_is_identity 200 100 ["x", "y1"]
      [⟨"a", "y1", [Val.num 3, Val.num 57], (0, 200), (100, 0)⟩] (fun _ => {})
      ⟨"e", "y1", [Val.nan, Val.nan], (0, 200), (100, 0)⟩ (by decide) (by decide)).1
      (Val.num 3) (Val.num 57) (by decide)⟩

/-! ## Range reconciliation (C3, C4) -/

theorem _updateComponent_xRange (iw ih : Int) (axes : Axes) (c : Component)
    (hc : c.axis ≠ "x") :
    (_updateComponent iw ih axes c "x").range = foldXRange iw (axes "x").range c := by
  have h2 : ¬ "x" = c.axis := fun e => hc e.symm
  simp [_updateComponent, setRange, setCalculatedDomain, foldXRange, h2]

theorem _updateComponent_yRange (iw ih : Int) (axes : Axes) (c : Component) (name : String)
    (hn : name ≠ "x") :
    (_updateComponent iw ih axes c name).range
      = if c.axis = name then foldYRange ih (axes name).range c else (axes name).range := by
  by_cases h : c.axis = name
  · subst h
    simp [_updateComponent, setRange, setCalculatedDomain, foldYRange]
  · have h2 : ¬ name = c.axis := fun e => h e.symm
    simp [_updateComponent, setRange, setCalculatedDomain, h, h2, hn]

theorem foldl_updateComponent_xRange (iw ih : Int) (cs : List Component) (axes : Axes)
    (hy : ∀ c ∈ cs, c.axis ≠ "x") :
    (cs.foldl (_updateComponent iw ih) axes "x").range
      = cs.foldl (foldXRange iw) (axes "x").range := by
  induction cs generalizing axes with
  | nil => rfl
  | cons c cs ih2 =>
    rw [List.foldl_cons, ih2 _ (fun d hd => hy d (List.mem_cons_of_mem _ hd)),
      _updateComponent_xRange iw ih axes c (hy c (List.mem_cons_self _ _))]
    rfl

theorem foldl_updateComponent_yRange (iw ih : Int) (cs : List Component) (axes : Axes)
    (name : String) (hn : name ≠ "x") :
    (cs.foldl (_updateComponent iw ih) axes name).range
      = (childrenOf name cs).foldl (foldYRange ih) (axes name).range := by
  induction cs generalizing axes with
  | nil => rfl
  | cons c cs ih2 =>
    rw [List.foldl_cons, ih2, _updateComponent_yRange iw ih axes c name hn]
    by_cases h : c.axis = name
    · simp [childrenOf, List.filter_cons, h]
    · simp [childrenOf, List.filter_cons, h]

theorem foldl_foldXRange_some (iw : Int) (cs : List Component) (a b : Int) :
    cs.foldl (foldXRange iw) (some (a, b))
      = some ((cs.map (fun c => c.xRange.1)).foldl max a,
          (cs.map (fun c => c.xRange.2)).foldl min b) := by
  induction cs generalizing a b with
  | nil => rfl
  | cons c cs ih =>
    rw [List.foldl_cons]
    have h : foldXRange iw (some (a, b)) c = some (max a c.xRange.1, min b c.xRange.2) := rfl
    rw [h, ih]
    rfl

theorem foldl_foldXRange (iw : Int) (cs : List Component) (r : Option (Int × Int))
    (hne : cs ≠ []) :
    cs.foldl (foldXRange iw) r
      = some ((cs.map (fun c => c.xRange.1)).foldl max (r.getD (0, iw)).1,
          (cs.map (fun c => c.xRange.2)).foldl min (r.getD (0, iw)).2) := by
  cases cs with
  | nil => exact absurd rfl hne
  | cons c cs =>
    rw [List.foldl_cons]
    have h : foldXRange iw r c
        = some (max (r.getD (0, iw)).1 c.xRange.1, min (r.getD (0, iw)).2 c.xRange.2) := rfl
    rw [h, foldl_foldXRange_some]
    rfl

theorem foldl_foldYRange_some (ih : Int) (cs : List Component) (a b : Int) :
    cs.foldl (foldYRange ih) (some (a, b))
      = some ((cs.map (fun c => c.yRange.1)).foldl min a,
          (cs.map (fun c => c.yRange.2)).foldl max b) := by
  induction cs generalizing a b with
  | nil => rfl
  | cons c cs ih2 =>
    rw [List.foldl_cons]
    have h : foldYRange ih (some (a, b)) c = some (min a c.yRange.1, max b c.yRange.2) := rfl
    rw [h, ih2]
    rfl

theorem foldl_foldYRange (ih : Int) (cs : List Component) (r : Option (Int × Int))
    (hne : cs ≠ []) :
    cs.foldl (foldYRange ih) r
      = some ((cs.map (fun c => c.yRange.1)).foldl min (r.getD (ih, 0)).1,
          (cs.map (fun c => c.yRange.2)).foldl max (r.getD (ih, 0)).2) := by
  cases cs with
  | nil => exact absurd rfl hne
  | cons c cs =>
    rw [List.foldl_cons]
    have h : foldYRange ih r c
        = some (min (r.getD (ih, 0)).1 c.yRange.1, max (r.getD (ih, 0)).2 c.yRange.2) := rfl
    rw [h, foldl_foldYRange_some]
    rfl

theorem resetAxes_range (active : List String) (axes : Axes) (name : String)
    (hA : name ∈ active) : (resetAxes active axes name).range = none := by
  rw [resetAxes_apply]
  simp [hA]

/-- Counterexample to C3: on a plot of inner height 100, child `a` has the
y-range `[100, 0]` and child `b` the y-range `[80, 10]`, both on `y1`. The
range stored for `y1` after the pass is `[80, 10]`; pixel 90 lies between the
ends of `a`'s range but not between the ends of the axis's range. -/
theorem axis_range_misses_child_range :
    (_updateComponents 200 100 ["x", "y1"]
        [⟨"a", "y1", [Val.num 3, Val.num 57], (0, 200), (100, 0)⟩,
         ⟨"b", "y1", [Val.num 0, Val.num 9], (0, 200), (80, 10)⟩]
        (fun _ => {}) "y1").range = some (80, 10)
      ∧ liesBetween (100, 0) 90 ∧ ¬ liesBetween (80, 10) 90 := by
  decide

/-- C3, amended: after a render pass the range `[lo, hi]` stored for a y axis
has `lo` at most the first end and `hi` at least the second end of the y-range
of every child rendered onto it, so it contains every child y-range whose ends
are in ascending order; on an active axis `lo` is the minimum of `innerHeight`
and the first ends, `hi` the maximum of `0` and the second ends. -/
theorem axis_range_bounds_children (iw ih : Int) (active : List String)
    (children : List Component) (axes : Axes) (c : Component)
    (hc : c ∈ children) (hx : c.axis ≠ "x") :
    ∃ lo hi : Int,
      (_updateComponents iw ih active children axes c.axis).range = some (lo, hi)
        ∧ lo ≤ c.yRange.1 ∧ c.yRange.2 ≤ hi
        ∧ (∀ v : Int, c.yRange.1 ≤ v → v ≤ c.yRange.2 → lo ≤ v ∧ v ≤ hi)
        ∧ (c.axis ∈ active →
            lo = ((childrenOf c.axis children).map (fun d => d.yRange.1)).foldl min ih
              ∧ hi = ((childrenOf c.axis children).map (fun d => d.yRange.2)).foldl max 0) := by
  have hmem : c ∈ childrenOf c.axis children := by
    simp [childrenOf, hc]
  have hne : childrenOf c.axis children ≠ [] := List.ne_nil_of_mem hmem
  have hlo : ∀ a : Int,
      ((childrenOf c.axis children).map (fun d => d.yRange.1)).foldl min a ≤ c.yRange.1 :=
    fun a => foldl_min_le_mem _ a _ (List.mem_map.mpr ⟨c, hmem, rfl⟩)
  have hhi : ∀ a : Int,
      c.yRange.2 ≤ ((childrenOf c.axis children).map (fun d => d.yRange.2)).foldl max a :=
    fun a => mem_le_foldl_max _ a _ (List.mem_map.mpr ⟨c, hmem, rfl⟩)
  unfold _updateComponents
  rw [foldl_updateComponent_yRange iw ih children _ c.axis hx, foldl_foldYRange ih _ _ hne]
  refine ⟨_, _, rfl, hlo _, hhi _, ?_, ?_⟩
  · intro v h1 h2
    exact ⟨le_trans (hlo _) h1, le_trans h2 (hhi _)⟩
  · intro hA
    rw [resetAxes_range active axes c.axis hA]
    exact ⟨rfl, rfl⟩

/-- Witness of C3, amended: the two children of the counterexample. -/
theorem axis_range_bounds_children_witness :
    ((⟨"b", "y1", [Val.num 0, Val.num 9], (0, 200), (80, 10)⟩ : Component)
        ∈ [⟨"a", "y1", [Val.num 3, Val.num 57], (0, 200), (100, 0)⟩,
           ⟨"b", "y1", [Val.num 0, Val.num 9], (0, 200), (80, 10)⟩]
      ∧ "y1" ≠ "x")
      ∧ ∃ lo hi : Int,
        (_updateComponents 200 100 ["x", "y1"]
          [⟨"a", "y1", [Val.num 3, Val.num 57], (0, 200), (100, 0)⟩,
           ⟨"b", "y1", [Val.num 0, Val.num 9], (0, 200), (80, 10)⟩]
          (fun _ => {}) "y1").range = some (lo, hi) ∧ lo ≤ 80 ∧ 10 ≤ hi :=
  ⟨⟨by decide, by decide⟩,
    match axis_range_bounds_children 200 100 ["x", "y1"]
      [⟨"a", "y1", [Val.num 3, Val.num 57], (0, 200), (100, 0)⟩,
       ⟨"b", "y1", [Val.num 0, Val.num 9], (0, 200), (80, 10)⟩]
      (fun _ => {}) ⟨"b", "y1", [Val.num 0, Val.num 9], (0, 200), (80, 10)⟩
      (by decide) (by decide) with
    | ⟨lo, hi, h1, h2, h3, _⟩ => ⟨lo, hi, h1, h2, h3⟩⟩

/-- C4: for a non-empty set of children (each mapped to a y axis), after a
render pass the shared x-range `[lo, hi]` stored at `axes.x.range` has `lo` at
least every child's lower x-range bound and `hi` at most every child's upper
x-range bound; with the x axis among the active axes, `lo` is the maximum of
`0` and the lower bounds and `hi` the minimum of `innerWidth` and the upper
bounds. -/
theorem shared_xRange_within_children (iw ih : Int) (active : List String)
    (children : List Component) (axes : Axes)
    (hne : children ≠ []) (hy : ∀ c ∈ children, c.axis ≠ "x") :
    ∃ lo hi : Int,
      (_updateComponents iw ih active children axes "x").range = some (lo, hi)
        ∧ (∀ c ∈ children, c.xRange.1 ≤ lo ∧ hi ≤ c.xRange.2)
        ∧ ("x" ∈ active →
            lo = (children.map (fun c => c.xRange.1)).foldl max 0
              ∧ hi = (children.map (fun c => c.xRange.2)).foldl min iw) := by
  unfold _updateComponents
  rw [foldl_updateComponent_xRange iw ih children _ hy, foldl_foldXRange iw _ _ hne]
  refine ⟨_, _, rfl, ?_, ?_⟩
  · intro c hc
    exact ⟨mem_le_foldl_max _ _ _ (List.mem_map.mpr ⟨c, hc, rfl⟩),
      foldl_min_le_mem _ _ _ (List.mem_map.mpr ⟨c, hc, rfl⟩)⟩
  · intro hA
    rw [resetAxes_range active axes "x" hA]
    exact ⟨rfl, rfl⟩

/-- Witness of C4: two children with the x-ranges `[10, 190]` and `[0, 180]`
on a plot of inner width 200; the shared x-range is `[10, 180]`. -/
theorem shared_xRange_within_children_witness :
    (([⟨"a", "y1", [Val.num 3, Val.num 57], (10, 190), (100, 0)⟩,
        ⟨"b", "y2", [Val.num 0, Val.num 9], (0, 180), (100, 0)⟩] : List Component) ≠ []
      ∧ ∀ c ∈ ([⟨"a", "y1", [Val.num 3, Val.num 57], (10, 190), (100, 0)⟩,
        ⟨"b", "y2", [Val.num 0, Val.num 9], (0, 180), (100, 0)⟩] : List Component),
          c.axis ≠ "x")
      ∧ ∃ lo hi : Int,
        (_updateComponents 200 100 ["x", "y1", "y2"]
          [⟨"a", "y1", [Val.num 3, Val.num 57], (10, 190), (100, 0)⟩,
           ⟨"b", "y2", [Val.num 0, Val.num 9], (0, 180), (100, 0)⟩]
          (fun _ => {}) "x").range = some (lo, hi)
        ∧ (∀ c ∈ ([⟨"a", "y1", [Val.num 3, Val.num 57], (10, 190), (100, 0)⟩,
            ⟨"b", "y2", [Val.num 0, Val.num 9], (0, 180), (100, 0)⟩] : List Component),
              c.xRange.1 ≤ lo ∧ hi ≤ c.xRange.2) :=
  ⟨⟨by decide, by decide⟩,
    match shared_xRange_within_children 200 100 ["x", "y1", "y2"]
      [⟨"a", "y1", [Val.num 3, Val.num 57], (10, 190), (100, 0)⟩,
       ⟨"b", "y2", [Val.num 0, Val.num 9], (0, 180), (100, 0)⟩]
      (fun _ => {}) (by decide) (by decide) with
    | ⟨lo, hi, h1, h2, _⟩ => ⟨lo, hi, h1, h2⟩⟩

/-! ## The axis groups of `zoom` -/

theorem insertGroup_keys (gs : List (String × List String)) (axis accessor : String) :
    (insertGroup gs axis accessor).map Prod.fst
      = if axis ∈ gs.map Prod.fst then gs.map Prod.fst else gs.map Prod.fst ++ [axis] := by
  induction gs with
  | nil => simp [insertGroup]
  | cons g gs ih =>
    obtain ⟨k, members⟩ := g
    by_cases h : k = axis
    · simp [insertGroup, h]
    · have h2 : ¬ axis = k := fun e => h e.symm
      by_cases hm : axis ∈ gs.map Prod.fst
      · simp only [insertGroup, h, if_false, List.map_cons, ih, hm, if_true, List.mem_cons, h2,
          false_or]
      · simp only [insertGroup, h, if_false, List.map_cons, ih, hm, List.mem_cons, h2,
          false_or, List.cons_append]

theorem setGroup_keys (gs : List (String × List String)) (axis : String) (members : List String) :
    (setGroup gs axis members).map Prod.fst
      = if axis ∈ gs.map Prod.fst then gs.map Prod.fst else gs.map Prod.fst ++ [axis] := by
  induction gs with
  | nil => simp [setGroup]
  | cons g gs ih =>
    obtain ⟨k, old⟩ := g
    by_cases h : k = axis
    · simp [setGroup, h]
    · have h2 : ¬ axis = k := fun e => h e.symm
      by_cases hm : axis ∈ gs.map Prod.fst
      · simp only [setGroup, h, if_false, List.map_cons, ih, hm, if_true, List.mem_cons, h2,
          false_or]
      · simp only [setGroup, h, if_false, List.map_cons, ih, hm, List.mem_cons, h2,
          false_or, List.cons_append]

theorem nodup_keys_step (keys : List String) (axis : String) (h : keys.Nodup) :
    (if axis ∈ keys then keys else keys ++ [axis]).Nodup := by
  by_cases hm : axis ∈ keys
  · simpa [hm] using h
  · simp only [hm, if_false]
    refine List.Nodup.append h (List.nodup_singleton axis) ?_
    intro k hk hk2
    rw [List.mem_singleton] at hk2
    subst hk2
    exact hm hk

theorem mem_keys_step (keys : List String) (axis k : String) :
    k ∈ (if axis ∈ keys then keys else keys ++ [axis]) ↔ k ∈ keys ∨ k = axis := by
  by_cases hm : axis ∈ keys
  · simp only [hm, if_true]
    constructor
    · exact Or.inl
    · rintro (h | h)
      · exact h
      · subst h; exact hm
  · simp [hm]

theorem foldl_insertGroup_keys (ys : List AccessorSpec) (gs : List (String × List String)) :
    ((gs.map Prod.fst).Nodup →
        ((ys.foldl (fun gs a => insertGroup gs a.axis a.accessor) gs).map Prod.fst).Nodup)
      ∧ (∀ k, k ∈ (ys.foldl (fun gs a => insertGroup gs a.axis a.accessor) gs).map Prod.fst
          ↔ k ∈ gs.map Prod.fst ∨ ∃ a ∈ ys, a.axis = k) := by
  induction ys generalizing gs with
  | nil => simp
  | cons y ys ih =>
    obtain ⟨h1, h2⟩ := ih (insertGroup gs y.axis y.accessor)
    refine ⟨?_, ?_⟩
    · intro hn
      apply h1
      rw [insertGroup_keys]
      exact nodup_keys_step _ _ hn
    · intro k
      rw [List.foldl_cons, h2, insertGroup_keys, mem_keys_step]
      constructor
      · rintro ((h | h) | ⟨a, ha, hk⟩)
        · exact Or.inl h
        · exact Or.inr ⟨y, List.mem_cons_self _ _, h.symm⟩
        · exact Or.inr ⟨a, List.mem_cons_of_mem _ ha, hk⟩
      · rintro (h | ⟨a, ha, hk⟩)
        · exact Or.inl (Or.inl h)
        · rcases List.mem_cons.mp ha with e | e
          · subst e; exact Or.inl (Or.inr hk.symm)
          · exact Or.inr ⟨a, e, hk⟩

/-- Each axis name has at most one group in `accessorsByAxis`. -/
theorem accessorsByAxis_nodup (yAccessors : List AccessorSpec) (xAccessor : String) :
    ((accessorsByAxis yAccessors xAccessor).map Prod.fst).Nodup := by
  unfold accessorsByAxis groupBy
  rw [setGroup_keys]
  exact nodup_keys_step _ _ ((foldl_insertGroup_keys yAccessors []).1 List.nodup_nil)

/-- The axes that have a group in `accessorsByAxis`: the x axis and the axis
of every y accessor. -/
theorem mem_accessorsByAxis_keys (yAccessors : List AccessorSpec) (xAccessor : String)
    (k : String) :
    k ∈ (accessorsByAxis yAccessors xAccessor).map Prod.fst
      ↔ k = "x" ∨ ∃ a ∈ yAccessors, a.axis = k := by
  unfold accessorsByAxis groupBy
  rw [setGroup_keys, mem_keys_step, (foldl_insertGroup_keys yAccessors []).2]
  simp only [List.map_nil, List.not_mem_nil, false_or]
  exact Or.comm

theorem insertGroup_members (gs : List (String × List String)) (axis accessor : String)
    (h : ∀ g ∈ gs, g.2 ≠ []) : ∀ g ∈ insertGroup gs axis accessor, g.2 ≠ [] := by
  induction gs with
  | nil =>
    intro g hg
    simp only [insertGroup, List.mem_singleton] at hg
    subst hg
    simp
  | cons g0 gs ih =>
    obtain ⟨k, members⟩ := g0
    intro g hg
    by_cases hk : k = axis
    · simp only [insertGroup, hk, if_true, List.mem_cons] at hg
      rcases hg with e | e
      · subst e; simp
      · exact h g (List.mem_cons_of_mem _ e)
    · simp only [insertGroup, hk, if_false, List.mem_cons] at hg
      rcases hg with e | e
      · subst e; exact h _ (List.mem_cons_self _ _)
      · exact ih (fun g hg => h g (List.mem_cons_of_mem _ hg)) g e

theorem setGroup_members (gs : List (String × List String)) (axis : String)
    (members : List String) (hm : members ≠ [])
    (h : ∀ g ∈ gs, g.2 ≠ []) : ∀ g ∈ setGroup gs axis members, g.2 ≠ [] := by
  induction gs with
  | nil =>
    intro g hg
    simp only [setGroup, List.mem_singleton] at hg
    subst hg
    exact hm
  | cons g0 gs ih =>
    obtain ⟨k, old⟩ := g0
    intro g hg
    by_cases hk : k = axis
    · simp only [setGroup, hk, if_true, List.mem_cons] at hg
      rcases hg with e | e
      · subst e; exact hm
      · exact h g (List.mem_cons_of_mem _ e)
    · simp only [setGroup, hk, if_false, List.mem_cons] at hg
      rcases hg with e | e
      · subst e; exact h _ (List.mem_cons_self _ _)
      · exact ih (fun g hg => h g (List.mem_cons_of_mem _ hg)) g e

theorem foldl_insertGroup_members (ys : List AccessorSpec) (gs : List (String × List String))
    (h : ∀ g ∈ gs, g.2 ≠ []) :
    ∀ g ∈ ys.foldl (fun gs a => insertGroup gs a.axis a.accessor) gs, g.2 ≠ [] := by
  induction ys generalizing gs with
  | nil => exact h
  | cons y ys ih => exact ih _ (insertGroup_members gs y.axis y.accessor h)

/-- No group of `accessorsByAxis` is empty. -/
theorem accessorsByAxis_members (yAccessors : List AccessorSpec) (xAccessor : String) :
    ∀ g ∈ accessorsByAxis yAccessors xAccessor, g.2 ≠ [] := by
  unfold accessorsByAxis groupBy
  exact setGroup_members _ _ _ (by simp)
    (foldl_insertGroup_members yAccessors [] (fun g hg => by cases hg))

/-! ## One `zoom` call, axis by axis -/

theorem zoomAxis_other (ranges : ZoomRequest) (axes : Axes) (g : String × List String)
    (n : String) (h : n ≠ g.1) : zoomAxis ranges axes g n = axes n := by
  simp only [zoomAxis]
  split_ifs
  · rfl
  · simp [setDomain, h]
  · rfl

theorem zoomAxis_self (ranges : ZoomRequest) (axes : Axes) (n : String) (accs : List String) :
    (zoomAxis ranges axes (n, accs) n).domain
      = if (accs.filter (requested ranges)).isEmpty then (axes n).domain
        else if ((combinedRange ranges accs).1.strictNe (combinedRange ranges accs).2
            || (combinedRange ranges accs).1.isNil) = true
          then some (combinedRange ranges accs) else (axes n).domain := by
  simp only [zoomAxis]
  split_ifs
  · rfl
  · simp [setDomain]
  · rfl

theorem foldl_zoomAxis_not_mem (ranges : ZoomRequest) (gs : List (String × List String))
    (axes : Axes) (n : String) (h : n ∉ gs.map Prod.fst) :
    gs.foldl (zoomAxis ranges) axes n = axes n := by
  induction gs generalizing axes with
  | nil => rfl
  | cons g gs ih =>
    rw [List.map_cons, List.mem_cons, not_or] at h
    rw [List.foldl_cons, ih _ h.2, zoomAxis_other ranges axes g n h.1]

theorem foldl_zoomAxis_nodup (ranges : ZoomRequest) (gs : List (String × List String))
    (axes : Axes) (n : String) (accs : List String)
    (hn : (gs.map Prod.fst).Nodup) (hg : (n, accs) ∈ gs) :
    (gs.foldl (zoomAxis ranges) axes n).domain = (zoomAxis ranges axes (n, accs) n).domain := by
  induction gs generalizing axes with
  | nil => cases hg
  | cons g gs ih =>
    rw [List.map_cons, List.nodup_cons] at hn
    rw [List.foldl_cons]
    rcases List.mem_cons.mp hg with e | e
    · subst e
      rw [foldl_zoomAxis_not_mem ranges gs _ n hn.1]
    · have hk : n ∈ gs.map Prod.fst := List.mem_map.mpr ⟨(n, accs), e, rfl⟩
      have hne : n ≠ g.1 := fun h => hn.1 (h ▸ hk)
      rw [ih _ hn.2 e, zoomAxis_self, zoomAxis_self, zoomAxis_other ranges axes g n hne]

/-- The domain that `zoom` leaves on an axis with a group is decided by that
group alone. -/
theorem zoom_domain_of_group (render : Axes → Axes)
    (hr : ∀ (ax : Axes) (n : String), (render ax n).domain = (ax n).domain)
    (yAccessors : List AccessorSpec) (xAccessor : String) (ranges : ZoomRequest) (axes : Axes)
    (n : String) (accs : List String) (hg : (n, accs) ∈ accessorsByAxis yAccessors xAccessor) :
    (zoom render yAccessors xAccessor ranges axes n).domain
      = (zoomAxis ranges axes (n, accs) n).domain := by
  unfold zoom
  rw [hr, foldl_zoomAxis_nodup ranges _ axes n accs
    (accessorsByAxis_nodup yAccessors xAccessor) hg]

/-- An axis without a group keeps its domain through `zoom`. -/
theorem zoom_domain_of_no_group (render : Axes → Axes)
    (hr : ∀ (ax : Axes) (n : String), (render ax n).domain = (ax n).domain)
    (yAccessors : List AccessorSpec) (xAccessor : String) (ranges : ZoomRequest) (axes : Axes)
    (n : String) (hg : n ∉ (accessorsByAxis yAccessors xAccessor).map Prod.fst) :
    (zoom render yAccessors xAccessor ranges axes n).domain = (axes n).domain := by
  unfold zoom
  rw [hr, foldl_zoomAxis_not_mem ranges _ axes n hg]

theorem setRange_domain (axes : Axes) (name : String) (v : Option (Int × Int)) (n : String) :
    (setRange axes name v n).domain = (axes n).domain := by
  unfold setRange
  split <;> rfl

theorem setCalculatedDomain_domain (axes : Axes) (name : String) (v : Option (Val × Val))
    (n : String) : (setCalculatedDomain axes name v n).domain = (axes n).domain := by
  unfold setCalculatedDomain
  split <;> rfl

theorem _updateComponent_domain (iw ih : Int) (axes : Axes) (c : Component) (n : String) :
    (_updateComponent iw ih axes c n).domain = (axes n).domain := by
  simp only [_updateComponent, setRange_domain, setCalculatedDomain_domain]

theorem foldl_updateComponent_domain (iw ih : Int) (cs : List Component) (axes : Axes)
    (n : String) :
    (cs.foldl (_updateComponent iw ih) axes n).domain = (axes n).domain := by
  induction cs generalizing axes with
  | nil => rfl
  | cons c cs ih2 => rw [List.foldl_cons, ih2, _updateComponent_domain]

/-- The pass `_updateComponents` writes no `axes.<name>.domain`. -/
theorem _updateComponents_domain (iw ih : Int) (active : List String)
    (children : List Component) (axes : Axes) (n : String) :
    (_updateComponents iw ih active children axes n).domain = (axes n).domain := by
  unfold _updateComponents
  rw [foldl_updateComponent_domain, resetAxes_apply]
  by_cases h : n ∈ active <;> simp [h]

theorem combinedRange_undefined (accs : List String) :
    combinedRange none accs = (Val.undef, Val.undef) := by
  have h : (accs.map (requestedBounds none)).flatten = [] := by
    induction accs with
    | nil => rfl
    | cons a as ih => simp [requestedBounds]
  unfold combinedRange
  rw [h]
  rfl

theorem zoomAxis_undefined (axes : Axes) (n : String) (accs : List String) (hne : accs ≠ []) :
    (zoomAxis none axes (n, accs) n).domain = some (Val.undef, Val.undef) := by
  rw [zoomAxis_self, combinedRange_undefined]
  have hf : accs.filter (requested none) = accs := by
    apply List.filter_eq_self.mpr
    intro a _
    rfl
  rw [hf]
  cases accs with
  | nil => exact absurd rfl hne
  | cons a as => simp [Val.strictNe, Val.isNil]

theorem zoomAll_domain_of_no_group (render : Axes → Axes)
    (hr : ∀ (ax : Axes) (n : String), (render ax n).domain = (ax n).domain)
    (yAccessors : List AccessorSpec) (xAccessor : String)
    (requests : List (List (String × List Val))) (axes : Axes)
    (n : String) (hg : n ∉ (accessorsByAxis yAccessors xAccessor).map Prod.fst) :
    (zoomAll render yAccessors xAccessor requests axes n).domain = (axes n).domain := by
  unfold zoomAll
  induction requests generalizing axes with
  | nil => rfl
  | cons r rs ih =>
    rw [List.foldl_cons, ih, zoom_domain_of_no_group render hr yAccessors xAccessor (some r) axes n hg]

/-! ## Zoom (C5 - C8) -/

/-- Counterexample to C5: `y1` is configured with the domain `[0, 100]`. After
`zoom({a: [2, 8]})` and then `zoom(undefined)` its domain is
`[undefined, undefined]`, not `[0, 100]`. -/
theorem zoom_undefined_loses_configured_domain :
    (sceneAxes "y1").domain = some (Val.num 0, Val.num 100)
      ∧ (zoom sceneRender sceneAccessors "t" none
          (zoomAll sceneRender sceneAccessors "t" [[("a", [Val.num 2, Val.num 8])]] sceneAxes)
          "y1").domain = some (Val.undef, Val.undef) := by
  decide

/-- C5, amended: after any finite sequence of `zoom(ranges)` calls with
ranges defined, `zoom(undefined)` leaves `[undefined, undefined]` as the domain
of every axis that has a group (the x axis and the axis of every y accessor),
and an axis without a group still has the domain it had before the first call.
Here `render` is any render pass that writes no domain. -/
theorem zoom_undefined_clears_every_group (render : Axes → Axes)
    (hr : ∀ (ax : Axes) (n : String), (render ax n).domain = (ax n).domain)
    (yAccessors : List AccessorSpec) (xAccessor : String)
    (requests : List (List (String × List Val))) (axes : Axes) (n : String) :
    ((n = "x" ∨ ∃ a ∈ yAccessors, a.axis = n) →
      (zoom render yAccessors xAccessor none
        (zoomAll render yAccessors xAccessor requests axes) n).domain
        = some (Val.undef, Val.undef))
    ∧ (¬ (n = "x" ∨ ∃ a ∈ yAccessors, a.axis = n) →
      (zoom render yAccessors xAccessor none
        (zoomAll render yAccessors xAccessor requests axes) n).domain = (axes n).domain) := by
  constructor
  · intro h
    have hk := (mem_accessorsByAxis_keys yAccessors xAccessor n).mpr h
    obtain ⟨g, hg, hgn⟩ := List.mem_map.mp hk
    obtain ⟨k, accs⟩ := g
    simp only at hgn
    subst hgn
    rw [zoom_domain_of_group render hr yAccessors xAccessor none _ k accs hg]
    exact zoomAxis_undefined _ k accs (accessorsByAxis_members yAccessors xAccessor _ hg)
  · intro h
    have hk : n ∉ (accessorsByAxis yAccessors xAccessor).map Prod.fst :=
      fun hm => h ((mem_accessorsByAxis_keys yAccessors xAccessor n).mp hm)
    rw [zoom_domain_of_no_group render hr yAccessors xAccessor none _ n hk,
      zoomAll_domain_of_no_group render hr yAccessors xAccessor requests axes n hk]

/-- Witness of C5, amended: the chart of the counterexample, axis `y2`. -/
theorem zoom_undefined_clears_every_group_witness :
    (∀ (ax : Axes) (n : String), (sceneRender ax n).domain = (ax n).domain)
      ∧ (zoom sceneRender sceneAccessors "t" none
          (zoomAll sceneRender sceneAccessors "t" [[("a", [Val.num 2, Val.num 8])]] sceneAxes)
          "y2").domain = some (Val.undef, Val.undef) :=
  ⟨fun ax n => _updateComponents_domain 200 100 _ _ ax n,
    (zoom_undefined_clears_every_group sceneRender
      (fun ax n => _updateComponents_domain 200 100 _ _ ax n) sceneAccessors "t"
      [[("a", [Val.num 2, Val.num 8])]] sceneAxes "y2").1
      (Or.inr ⟨⟨"b", "y2"⟩, by decide, rfl⟩)⟩

/-- C6: for a defined zoom request and an axis group none of whose accessors
is a key of the request, `zoom` leaves the domain of that axis as it was.
Here `render` is any render pass that writes no domain. -/
theorem zoom_leaves_unrequested_axis (render : Axes → Axes)
    (hr : ∀ (ax : Axes) (n : String), (render ax n).domain = (ax n).domain)
    (yAccessors : List AccessorSpec) (xAccessor : String)
    (r : List (String × List Val)) (axes : Axes) (n : String) (accs : List String)
    (hg : (n, accs) ∈ accessorsByAxis yAccessors xAccessor)
    (hk : ∀ a ∈ accs, r.lookup a = none) :
    (zoom render yAccessors xAccessor (some r) axes n).domain = (axes n).domain := by
  rw [zoom_domain_of_group render hr yAccessors xAccessor (some r) axes n accs hg, zoomAxis_self]
  have hf : accs.filter (requested (some r)) = [] := by
    apply List.filter_eq_nil_iff.mpr
    intro a ha
    simp [requested, hk a ha]
  simp [hf]

/-- Witness of C6: with `a` on `y1` and `b` on `y2`, `zoom({a: [2, 8]})`
leaves the domains of `y2` and of `x` unchanged. -/
theorem zoom_leaves_unrequested_axis_witness :
    ((∀ (ax : Axes) (n : String), (sceneRender ax n).domain = (ax n).domain)
      ∧ ("y2", ["b"]) ∈ accessorsByAxis sceneAccessors "t"
      ∧ ("x", ["t"]) ∈ accessorsByAxis sceneAccessors "t"
      ∧ (∀ a ∈ ["b"], [("a", [Val.num 2, Val.num 8])].lookup a = none)
      ∧ (∀ a ∈ ["t"], [("a", [Val.num 2, Val.num 8])].lookup a = none))
      ∧ (zoom sceneRender sceneAccessors "t" (some [("a", [Val.num 2, Val.num 8])]) sceneAxes
          "y2").domain = (sceneAxes "y2").domain
      ∧ (zoom sceneRender sceneAccessors "t" (some [("a", [Val.num 2, Val.num 8])]) sceneAxes
          "x").domain = (sceneAxes "x").domain :=
  ⟨⟨fun ax n => _updateComponents_domain 200 100 _ _ ax n, by decide, by decide, by decide,
      by decide⟩,
    zoom_leaves_unrequested_axis sceneRender
      (fun ax n => _updateComponents_domain 200 100 _ _ ax n) sceneAccessors "t"
      [("a", [Val.num 2, Val.num 8])] sceneAxes "y2" ["b"] (by decide) (by decide),
    zoom_leaves_unrequested_axis sceneRender
      (fun ax n => _updateComponents_domain 200 100 _ _ ax n) sceneAccessors "t"
      [("a", [Val.num 2, Val.num 8])] sceneAxes "x" ["t"] (by decide) (by decide)⟩

/-- C7: for a defined zoom request and an axis group whose requested bounds
combine to a low bound equal to the high bound, both the same number, `zoom`
leaves the domain of that axis as it was. Here `render` is any render pass
that writes no domain. -/
theorem zoom_discards_degenerate_range (render : Axes → Axes)
    (hr : ∀ (ax : Axes) (n : String), (render ax n).domain = (ax n).domain)
    (yAccessors : List AccessorSpec) (xAccessor : String)
    (r : List (String × List Val)) (axes : Axes) (n : String) (accs : List String)
    (hg : (n, accs) ∈ accessorsByAxis yAccessors xAccessor)
    (v : Int) (hd : combinedRange (some r) accs = (Val.num v, Val.num v)) :
    (zoom render yAccessors xAccessor (some r) axes n).domain = (axes n).domain := by
  rw [zoom_domain_of_group render hr yAccessors xAccessor (some r) axes n accs hg, zoomAxis_self,
    hd]
  simp [Val.strictNe, Val.isNil]

/-- Witness of C7: `zoom({a: [5, 5]})` leaves the configured domain `[0, 100]`
of `y1`, the axis of `a`. -/
theorem zoom_discards_degenerate_range_witness :
    ((∀ (ax : Axes) (n : String), (sceneRender ax n).domain = (ax n).domain)
      ∧ ("y1", ["a"]) ∈ accessorsByAxis sceneAccessors "t"
      ∧ combinedRange (some [("a", [Val.num 5, Val.num 5])]) ["a"] = (Val.num 5, Val.num 5))
      ∧ (zoom sceneRender sceneAccessors "t" (some [("a", [Val.num 5, Val.num 5])]) sceneAxes
          "y1").domain = (sceneAxes "y1").domain :=
  ⟨⟨fun ax n => _updateComponents_domain 200 100 _ _ ax n, by decide, by decide⟩,
    zoom_discards_degenerate_range sceneRender
      (fun ax n => _updateComponents_domain 200 100 _ _ ax n) sceneAccessors "t"
      [("a", [Val.num 5, Val.num 5])] sceneAxes "y1" ["a"] (by decide) 5 (by decide)⟩

/-- Counterexample to C8: `zoom({a: [8, 2]})`, an entry with inverted bounds,
returns and commits the reordered domain `[2, 8]` to `y1`; `zoom({a: [NaN,
8], b: [undefined, undefined]})`, entries with non-numeric bounds, returns,
keeps the domain of `y1` and commits `[undefined, undefined]` to `y2`. -/
theorem zoom_commits_from_bad_bounds :
    (zoom sceneRender sceneAccessors "t" (some [("a", [Val.num 8, Val.num 2])]) sceneAxes
        "y1").domain = some (Val.num 2, Val.num 8)
      ∧ (zoom sceneRender sceneAccessors "t"
          (some [("a", [Val.nan, Val.num 8]), ("b", [Val.undef, Val.undef])]) sceneAxes
          "y1").domain = some (Val.num 0, Val.num 100)
      ∧ (sceneAxes "y2").domain = none
      ∧ (zoom sceneRender sceneAccessors "t"
          (some [("a", [Val.nan, Val.num 8]), ("b", [Val.undef, Val.undef])]) sceneAxes
          "y2").domain = some (Val.undef, Val.undef) := by
  decide

/-- C8, amended: `zoom` checks no bound and raises no error. For an axis group
with the single accessor `a` and a request entry for `a` with bounds of any
kind, it commits the numeric extent of those bounds as the domain of the axis
(`undefined`, `null` and `NaN` bounds are dropped, inverted bounds are put in
order), unless that extent is one number twice, in which case the axis keeps
its domain. In particular `zoom({a: [hi, lo]})` with `lo < hi` commits
`[lo, hi]`. Here `render` is any render pass that writes no domain. -/
theorem zoom_commits_extent_of_any_bounds (render : Axes → Axes)
    (hr : ∀ (ax : Axes) (n : String), (render ax n).domain = (ax n).domain)
    (yAccessors : List AccessorSpec) (xAccessor : String)
    (r : List (String × List Val)) (axes : Axes) (n a : String)
    (hg : (n, [a]) ∈ accessorsByAxis yAccessors xAccessor)
    (bounds : List Val) (hl : r.lookup a = some bounds) :
    (zoom render yAccessors xAccessor (some r) axes n).domain
        = (if ((numericExtent bounds).1.strictNe (numericExtent bounds).2
              || (numericExtent bounds).1.isNil) = true
            then some (numericExtent bounds) else (axes n).domain)
      ∧ (∀ lo hi : Int, lo < hi → bounds = [Val.num hi, Val.num lo] →
          (zoom render yAccessors xAccessor (some r) axes n).domain
            = some (Val.num lo, Val.num hi)) := by
  have hc : combinedRange (some r) [a] = numericExtent bounds := by
    unfold combinedRange
    rw [extent_eq_numericExtent]
    simp [requestedBounds, hl]
  have hf : ([a].filter (requested (some r))).isEmpty = false := by
    simp [requested, hl]
  have hz : (zoom render yAccessors xAccessor (some r) axes n).domain
      = (if ((numericExtent bounds).1.strictNe (numericExtent bounds).2
            || (numericExtent bounds).1.isNil) = true
          then some (numericExtent bounds) else (axes n).domain) := by
    rw [zoom_domain_of_group render hr yAccessors xAccessor (some r) axes n [a] hg,
      zoomAxis_self, hc, hf]
    simp
  refine ⟨hz, ?_⟩
  intro lo hi hlt hb
  rw [hz, hb]
  have he : numericExtent [Val.num hi, Val.num lo] = (Val.num lo, Val.num hi) := by
    simp [numericExtent, numbers, min_eq_right (le_of_lt hlt), max_eq_left (le_of_lt hlt)]
  rw [he]
  simp [Val.strictNe, ne_of_lt hlt]

/-- Witness of C8, amended: `zoom({a: [8, 2]})` on the chart `sceneAccessors`. -/
theorem zoom_commits_extent_of_any_bounds_witness :
    ((∀ (ax : Axes) (n : String), (sceneRender ax n).domain = (ax n).domain)
      ∧ ("y1", ["a"]) ∈ accessorsByAxis sceneAccessors "t"
      ∧ [("a", [Val.num 8, Val.num 2])].lookup "a" = some [Val.num 8, Val.num 2])
      ∧ (zoom sceneRender sceneAccessors "t" (some [("a", [Val.num 8, Val.num 2])]) sceneAxes
          "y1").domain = some (Val.num 2, Val.num 8) :=
  ⟨⟨fun ax n => _updateComponents_domain 200 100 _ _ ax n, by decide, by decide⟩,
    (zoom_commits_extent_of_any_bounds sceneRender
      (fun ax n => _updateComponents_domain 200 100 _ _ ax n) sceneAccessors "t"
      [("a", [Val.num 8, Val.num 2])] sceneAxes "y1" "a" (by decide)
      [Val.num 8, Val.num 2] (by decide)).2 2 8 (by decide) rfl⟩

/-! ## Crosshair (C9, C10) -/

/-- C9: for a pointer position that is absent or has `px < 0`,
`px > innerWidth`, `py < 0` or `py > innerHeight`, `_toggleCrosshair`
dispatches exactly one event, with `visible = false`, dispatches no event with
`visible = true`, and resets `_ticking` to `false`. -/
theorem toggleCrosshair_outside_hides (crosshairId : Option String) (iw ih : Int)
    (point : Option Point) (s : Crosshair)
    (hout : ∀ p : Point, point = some p → p.1 < 0 ∨ p.1 > iw ∨ p.2 < 0 ∨ p.2 > ih) :
    (_toggleCrosshair crosshairId iw ih point s).fired
        = s.fired ++ [⟨crosshairId, false, none⟩]
      ∧ (_toggleCrosshair crosshairId iw ih point s).ticking = false
      ∧ (_toggleCrosshair crosshairId iw ih point s).frame = s.frame := by
  cases point with
  | none => exact ⟨rfl, rfl, rfl⟩
  | some p =>
    have h := hout p rfl
    have hc : (decide (p.1 < 0) || decide (p.1 > iw) || decide (p.2 < 0) || decide (p.2 > ih))
        = true := by
      simpa [or_assoc] using h
    simp only [_toggleCrosshair]
    rw [if_pos hc]
    exact ⟨rfl, rfl, rfl⟩

/-- Witness of C9: the pointer at `(250, 40)` on a plot of 200 by 100. -/
theorem toggleCrosshair_outside_hides_witness :
    (∀ p : Point, some ((250, 40) : Point) = some p →
        p.1 < 0 ∨ p.1 > 200 ∨ p.2 < 0 ∨ p.2 > 100)
      ∧ (_toggleCrosshair (some "crosshair") 200 100 (some (250, 40)) ⟨true, [], []⟩).fired
        = [⟨some "crosshair", false, none⟩] :=
  ⟨fun p hp => by cases hp; decide,
    (toggleCrosshair_outside_hides (some "crosshair") 200 100 (some (250, 40)) ⟨true, [], []⟩
      (fun p hp => by cases hp; decide)).1⟩

theorem mousemoves_ticking (points : List Point) (s : Crosshair) (h : s.ticking = true) :
    mousemoves points s = s := by
  unfold mousemoves
  induction points with
  | nil => rfl
  | cons p ps ih =>
    rw [List.foldl_cons]
    have hs : _onMousemove p s = s := by simp [_onMousemove, h]
    rw [hs]
    exact ih

/-- Counterexample to C10: after a frame, the pointer moves to `(10, 10)` and
then to `(20, 20)`. One callback is queued, bound to `(10, 10)`; when the
frame fires, `_toggleCrosshair` receives `(10, 10)`, not the latest position
`(20, 20)`. -/
theorem mousemove_drops_latest_position :
    (mousemoves [(10, 10), (20, 20)] ⟨false, [], []⟩).frame = [(10, 10)]
      ∧ (animationFrame (some "crosshair") 200 100
          (mousemoves [(10, 10), (20, 20)] ⟨false, [], []⟩)).fired
        = [⟨some "crosshair", true, some (10, 10)⟩] := by
  decide

/-- C10, amended: for a non-empty run of pointer-move events handled by
`_onMousemove` while no computation is pending (`_ticking` false), exactly one
highlight computation is scheduled, and it is bound to the first position of
the run; the later positions are dropped. When the frame fires with nothing
else queued, `_toggleCrosshair` receives that first position. -/
theorem mousemoves_schedules_first_position (p : Point) (ps : List Point) (s : Crosshair)
    (ht : s.ticking = false) :
    (mousemoves (p :: ps) s).frame = s.frame ++ [p]
      ∧ (mousemoves (p :: ps) s).ticking = true
      ∧ (mousemoves (p :: ps) s).fired = s.fired
      ∧ (s.frame = [] → ∀ (crosshairId : Option String) (iw ih : Int),
          animationFrame crosshairId iw ih (mousemoves (p :: ps) s)
            = _toggleCrosshair crosshairId iw ih (some p) { s with ticking := true }) := by
  have h1 : _onMousemove p s = { s with frame := s.frame ++ [p], ticking := true } := by
    simp [_onMousemove, ht]
  have h2 : mousemoves (p :: ps) s = { s with frame := s.frame ++ [p], ticking := true } := by
    unfold mousemoves
    rw [List.foldl_cons, h1]
    exact mousemoves_ticking ps _ rfl
  rw [h2]
  refine ⟨rfl, rfl, rfl, ?_⟩
  intro hf crosshairId iw ih
  simp only [animationFrame, hf, List.nil_append, List.foldl_cons, List.foldl_nil]

/-- Witness of C10, amended: the two pointer moves of the counterexample. -/
theorem mousemoves_schedules_first_position_witness :
    (⟨false, [], []⟩ : Crosshair).ticking = false
      ∧ (mousemoves [(10, 10), (20, 20)] ⟨false, [], []⟩).frame = [] ++ [(10, 10)] :=
  ⟨rfl, (mousemoves_schedules_first_position (10, 10) [(20, 20)] ⟨false, [], []⟩ rfl).1⟩

end CompositeYView
